import Mathlib

/-!
Verification of the HTML-to-DOCX conversion service
(src/html_to_docx/service.py of paty-docx-conversor).

The markup tree produced by the HTML parser is modelled by the inductive
type Node; the conversion routines of service.py are translated one by one
into executable Lean functions over that tree.  Python dictionaries are
modelled as insertion-ordered association lists (lookup takes the first
binding, assignment overwrites in place), Python strings as Lean strings
manipulated through their character lists, and the whitespace class of the
regular-expression engine and of str.strip by the ASCII whitespace
characters (the inputs involved in the theorems below are ASCII).
Floating-point pixel arithmetic of Inches(px / 96.0) is modelled exactly:
one pixel is 914400 / 96 = 9525 EMU.
-/

namespace HtmlDocx

/-- Whitespace characters recognised by the embedding (ASCII fragment of
the Python regex class \s and of str.strip). -/
def isWs (c : Char) : Bool :=
  c = ' ' || c = '\t' || c = '\n' || c = '\r' || c.toNat = 11 || c.toNat = 12

/-- Both-ends whitespace trim on character lists (Python str.strip). -/
def stripChars (cs : List Char) : List Char :=
  ((cs.dropWhile isWs).reverse.dropWhile isWs).reverse

/-- Python str.strip on strings. -/
def stripString (s : String) : String :=
  ⟨stripChars s.data⟩

/-- Collapse every maximal whitespace run to one space; the Boolean records
whether the previous character belonged to a whitespace run (the state of
re.sub applied with pattern \s+ and replacement by a single space). -/
def collapseWsAux : Bool → List Char → List Char
  | _, [] => []
  | inRun, c :: cs =>
    if isWs c then
      if inRun then collapseWsAux true cs else ' ' :: collapseWsAux true cs
    else c :: collapseWsAux false cs

/-- Translation of service.py _normalize_ws: collapse whitespace runs to a
single space, then trim both ends. -/
def normalizeWs (s : String) : String :=
  ⟨stripChars (collapseWsAux false s.data)⟩

/-- ASCII lowercasing of a character list (Python str.lower on the ASCII
inputs that occur here). -/
def lowerChars (cs : List Char) : List Char :=
  cs.map Char.toLower

/-- ASCII lowercasing of a string. -/
def lowerStr (s : String) : String :=
  ⟨lowerChars s.data⟩

/-- A node of the parsed markup tree: a text node, or an element carrying
its tag name, its class attribute tokens, its remaining attributes and its
ordered children (the view of the BeautifulSoup tree used by service.py). -/
inductive Node where
  | text (s : String)
  | elem (name : String) (classes : List String) (attrs : List (String × String)) (children : List Node)

/-- Children of a node (empty for a text node). -/
def Node.childrenOf : Node → List Node
  | .text _ => []
  | .elem _ _ _ children => children

/-- Ordered-dictionary assignment: overwrite the first binding of the key
in place, or append a new binding (Python dict assignment). -/
def dset {α : Type} : List (String × α) → String → α → List (String × α)
  | [], k, v => [(k, v)]
  | (k', v') :: rest, k, v =>
    if k' == k then (k, v) :: rest else (k', v') :: dset rest k v

/-- Ordered-dictionary lookup: first binding of the key (Python dict get). -/
def dget {α : Type} (m : List (String × α)) (k : String) : Option α :=
  (m.find? (fun p => p.1 == k)).map (·.2)

/-- Python dict.update: assign every binding of the second map in order. -/
def dictUpdate {α : Type} (m d : List (String × α)) : List (String × α) :=
  d.foldl (fun acc p => dset acc p.1 p.2) m

/-- Attribute lookup on an element (BeautifulSoup tag.get). -/
def attrOf (t : Node) (k : String) : Option String :=
  match t with
  | .text _ => none
  | .elem _ _ attrs _ => dget attrs k

/-- Class tokens of an element (BeautifulSoup tag.get applied to class). -/
def classesOf : Node → List String
  | .text _ => []
  | .elem _ classes _ _ => classes

mutual
/-- Raw strings of all text descendants of a node, in document order
(the string stream underlying BeautifulSoup get_text). -/
def textDescendants : Node → List String
  | .text s => [s]
  | .elem _ _ _ children => textDescendantsList children

/-- Raw strings of all text descendants of a node list, in document order. -/
def textDescendantsList : List Node → List String
  | [] => []
  | n :: ns => textDescendants n ++ textDescendantsList ns
end

/-- Join character lists with a single-space separator. -/
def joinSpace : List (List Char) → List Char
  | [] => []
  | [x] => x
  | x :: y :: rest => x ++ ' ' :: joinSpace (y :: rest)

/-- Translation of tag.get_text with separator a single space and
strip=True: each descendant string is stripped, empty results are skipped,
and the remainder is joined by one space. -/
def getTextSp (t : Node) : String :=
  ⟨joinSpace (((textDescendants t).map (fun s => stripChars s.data)).filter (fun cs => !cs.isEmpty))⟩

mutual
/-- Rows contributed by one node to table_tag.find_all applied to tr
filtered by find_parent identity (service.py lines 338 and 371): a tr
element is collected, and the search never descends into a nested table,
so exactly the tr descendants whose nearest enclosing table is the table
under construction are kept. -/
def trRowsA : Node → List Node
  | .text _ => []
  | .elem name classes attrs children =>
    if name = "table" then []
    else
      (if name = "tr" then [Node.elem name classes attrs children] else [])
        ++ trRowsL children

/-- Row collection over a node list, in document order. -/
def trRowsL : List Node → List Node
  | [] => []
  | n :: ns => trRowsA n ++ trRowsL ns
end

/-- Rows of a table node: its tr descendants whose nearest enclosing table
is this table. -/
def trRows (t : Node) : List Node :=
  trRowsL t.childrenOf

mutual
/-- Whether a node is or contains a th element (table.find applied to th,
service.py line 164, which searches all descendants). -/
def hasThA : Node → Bool
  | .text _ => false
  | .elem name _ _ children => name = "th" || hasThL children

/-- Existence of a th element in a node list or below it. -/
def hasThL : List Node → Bool
  | [] => false
  | n :: ns => hasThA n || hasThL ns
end

/-- Direct td or th children of a row (find_all with recursive=False,
service.py lines 346 and 378). -/
def directCells (r : Node) : List Node :=
  r.childrenOf.filter fun c =>
    match c with
    | .text _ => false
    | .elem name _ _ _ => name = "td" || name = "th"

/-- Translation of service.py _is_real_table: the table classification
heuristic.  A node that is not a table element is never a data table;
otherwise the rules are tried in order: the data-table class marker, a th
descendant, then a border attribute that is truthy and whose trim is
neither the digit zero nor empty. -/
def isRealTable (t : Node) : Bool :=
  match t with
  | .text _ => false
  | .elem name classes attrs children =>
    if name ≠ "table" then false
    else if classes.contains "data-table" then true
    else if hasThL children then true
    else
      match dget attrs "border" with
      | none => false
      | some b => b ≠ "" && stripString b ≠ "0" && stripString b ≠ ""

/-- Child filter of service.py _iter_child_nodes: a text child survives
only when its strip is non-empty; element children always survive. -/
def keepChild : Node → Bool
  | .text s => stripString s ≠ ""
  | .elem _ _ _ _ => true

/-- The child iterator itself (service.py _iter_child_nodes). -/
def iterChildNodes (children : List Node) : List Node :=
  children.filter keepChild

/-- Split a character list at every semicolon (Python str.split). -/
def splitSemi : List Char → List (List Char)
  | [] => [[]]
  | ';' :: cs => [] :: splitSemi cs
  | c :: cs =>
    match splitSemi cs with
    | [] => [[c]]
    | p :: ps => (c :: p) :: ps

/-- Break a character list at its first colon, when one exists
(Python str.split with a colon separator and maxsplit one, guarded by a
containment test). -/
def breakColon : List Char → Option (List Char × List Char)
  | [] => none
  | ':' :: cs => some ([], cs)
  | c :: cs => (breakColon cs).map (fun p => (c :: p.1, p.2))

/-- Translation of service.py _parse_style_attr: split the declaration
text on semicolons, break each part at its first colon, trim and lowercase
the key, trim the value, and keep non-empty keys in an ordered map. -/
def parseStyleAttr (style : String) : List (String × String) :=
  (splitSemi style.data).foldl
    (fun out part =>
      match breakColon part with
      | none => out
      | some (k, v) =>
        let key : String := ⟨lowerChars (stripChars k)⟩
        let val : String := ⟨stripChars v⟩
        if key = "" then out else dset out key val)
    []

/-- Table of class rules parsed from style blocks, the value of the module
state _CSS_CLASS_STYLES at a given moment. -/
def CssRules : Type := List (String × List (String × String))

/-- Scan for the terminator of a comment and return the text after it
(the non-greedy regex step of comment removal in _parse_css_class_rules). -/
def findCommentClose : List Char → Option (List Char)
  | [] => none
  | '*' :: '/' :: rest => some rest
  | _ :: rest => findCommentClose rest

/-- Remove comment spans (the re.sub step of _parse_css_class_rules): each
opener with a later terminator is removed together with the enclosed text;
an opener with no terminator is left in place, exactly as the non-greedy
substitution leaves unmatched text untouched.  The fuel argument only
bounds the recursion depth; every step consumes at least one character, so
with fuel at least the length of the input the result is exact. -/
def removeCommentsFuel : Nat → List Char → List Char
  | 0, cs => cs
  | _ + 1, [] => []
  | n + 1, '/' :: '*' :: rest =>
    (match findCommentClose rest with
     | some r => removeCommentsFuel n r
     | none => '/' :: '*' :: rest)
  | n + 1, c :: rest => c :: removeCommentsFuel n rest

/-- Comment removal with sufficient fuel. -/
def removeComments (cs : List Char) : List Char :=
  removeCommentsFuel cs.length cs

/-- Characters allowed in the class-name group of the selector pattern of
_parse_css_class_rules (ASCII letters, digits, underscore, hyphen). -/
def isClsChar (c : Char) : Bool :=
  c.isAlpha || c.isDigit || c = '_' || c = '-'

/-- Scanner for the finditer loop of _parse_css_class_rules: find, left to
right, every occurrence of a dot followed by a non-empty class-name run,
optional whitespace, an opening brace, a non-empty brace-free body and a
closing brace; each hit binds the parsed body to the class name with
dictionary assignment (a later rule for the same class wins).  On a failed
candidate the scan resumes one character further, as finditer does.  The
fuel argument only bounds the recursion depth; every step consumes at
least one character, so with fuel at least the length of the input the
result is exact. -/
def scanCssRulesFuel : Nat → List Char → CssRules → CssRules
  | 0, _, out => out
  | _ + 1, [], out => out
  | n + 1, '.' :: rest, out =>
    (let cls := rest.takeWhile isClsChar
     if cls.isEmpty then scanCssRulesFuel n rest out
     else
       match (rest.dropWhile isClsChar).dropWhile isWs with
       | '{' :: afterBrace =>
         (let body := afterBrace.takeWhile (fun c => c ≠ '}')
          match afterBrace.dropWhile (fun c => c ≠ '}') with
          | '}' :: rest2 =>
            if body.isEmpty then scanCssRulesFuel n rest out
            else scanCssRulesFuel n rest2 (dset out ⟨cls⟩ (parseStyleAttr ⟨body⟩))
          | _ => scanCssRulesFuel n rest out)
       | _ => scanCssRulesFuel n rest out)
  | n + 1, _ :: rest, out => scanCssRulesFuel n rest out

/-- Translation of service.py _parse_css_class_rules: strip comments, then
collect every simple single-class rule into the class-to-properties map. -/
def parseCssClassRules (cssText : String) : CssRules :=
  if cssText = "" then []
  else
    let cs := removeComments cssText.data
    scanCssRulesFuel cs.length cs []

/-- Translation of service.py _style_map_for: merge, in order, the class
rules for each class token of the element, then the inline style
attribute, later bindings overwriting earlier ones.  The first argument is
the ambient class-rule table the source reads from the module state. -/
def styleMapFor (css : CssRules) (t : Node) : List (String × String) :=
  dictUpdate
    ((classesOf t).foldl (fun m cls => dictUpdate m ((dget css cls).getD [])) [])
    (parseStyleAttr ((attrOf t "style").getD ""))

/-- Numeric value of a digit run. -/
def digitsVal (ds : List Char) : Int :=
  ds.foldl (fun a c => a * 10 + (Int.ofNat (c.toNat - 48))) 0

/-- Match, at the head of the text, the pixel-length pattern of
_extract_px: a digit run, an optional fraction, optional whitespace and
the letters p and x in either case.  Returns the integer part of the
number, the value of int applied to float of the matched group (the
float rounding of enormous digit runs is idealised as exact). -/
def pxMatchAt (cs : List Char) : Option Int :=
  let ds := cs.takeWhile Char.isDigit
  if ds.isEmpty then none
  else
    let rest := cs.dropWhile Char.isDigit
    let rest2 :=
      match rest with
      | '.' :: r => if (r.takeWhile Char.isDigit).isEmpty then rest else r.dropWhile Char.isDigit
      | _ => rest
    match rest2.dropWhile isWs with
    | p :: x :: _ =>
      if (p = 'p' || p = 'P') && (x = 'x' || x = 'X') then some (digitsVal ds) else none
    | _ => none

/-- Leftmost search for the pixel-length pattern (re.search semantics for
the pattern of _extract_px). -/
def pxSearch : List Char → Option Int
  | [] => none
  | c :: cs =>
    match pxMatchAt (c :: cs) with
    | some n => some n
    | none => pxSearch cs

/-- Translation of service.py _extract_px: look the property up in the
style map (lowercased), treat a missing or empty value as no result, and
otherwise search the value for a pixel length. -/
def extractPx (styleMap : List (String × String)) (prop : String) : Option Int :=
  match dget styleMap (lowerStr prop) with
  | none => none
  | some v => if v = "" then none else pxSearch v.data

/-- Python truthiness of the optional pixel value: an absent value and the
number zero are both falsy. -/
def pyTruthy : Option Int → Bool
  | none => false
  | some n => n ≠ 0

/-- Python int applied to a stripped decimal string: an optional sign
followed by a non-empty ASCII digit run (the underscore grouping and the
non-ASCII digits Python would also accept never reach a success path in
the source and are not modelled). -/
def pyInt (cs : List Char) : Option Int :=
  match cs with
  | '-' :: ds => if ds.isEmpty || !ds.all Char.isDigit then none else some (-(digitsVal ds))
  | '+' :: ds => if ds.isEmpty || !ds.all Char.isDigit then none else some (digitsVal ds)
  | ds => if ds.isEmpty || !ds.all Char.isDigit then none else some (digitsVal ds)

/-- The width-attribute fallback of _add_image: the stripped attribute, an
empty string replaced by the digit zero, parsed by int, failures giving
nothing; the final disjunction with None turns a zero into nothing. -/
def attrWidthPx (img : Node) : Option Int :=
  let s := stripString ((attrOf img "width").getD "")
  let s2 := if s = "" then "0" else s
  match pyInt s2.data with
  | none => none
  | some n => if n = 0 then none else some n

/-- The width-resolution chain of _add_image (lines 241 to 251): the
max-width pixel length when truthy, else the width pixel length when
truthy, else the width attribute, else nothing; the final value is kept
only when truthy. -/
def resolveImgWidthPx (css : CssRules) (img : Node) : Option Int :=
  let sm := styleMapFor css img
  let w1 := extractPx sm "max-width"
  let w2 := if pyTruthy w1 then w1 else extractPx sm "width"
  let w3 := if pyTruthy w2 then w2 else attrWidthPx img
  if pyTruthy w3 then w3 else none

/-- Exact EMU value of Inches(px / 96.0): 914400 EMU per inch at 96 pixels
per inch gives 9525 EMU per pixel. -/
def pxToEmu (px : Int) : Int :=
  px * 9525

/-- Caseless literal matching: drop the pattern from the head of the text,
comparing ASCII-lowercased characters, and return the remainder. -/
def dropCaseless : List Char → List Char → Option (List Char)
  | [], cs => some cs
  | _ :: _, [] => none
  | p :: ps, c :: cs => if c.toLower = p.toLower then dropCaseless ps cs else none

/-- The anchored data-image pattern of _add_image (line 231): the literal
data:image/ in either case, a non-empty format run up to a semicolon, the
literal ;base64, in either case, and a non-empty payload. -/
def matchDataImage (src : String) : Option (String × String) :=
  match dropCaseless "data:image/".data src.data with
  | none => none
  | some rest =>
    let fmt := rest.takeWhile (fun c => c ≠ ';')
    if fmt.isEmpty then none
    else
      match dropCaseless ";base64,".data (rest.dropWhile (fun c => c ≠ ';')) with
      | none => none
      | some payload => if payload.isEmpty then none else some (⟨fmt⟩, ⟨payload⟩)

/-- Translation of service.py _closest_text_align_right: walk the chain
from the element through its ancestors and report whether any of them has
a text-align style equal to right (lowercased, missing value read as the
empty string). -/
def closestTextAlignRight (css : CssRules) (chain : List Node) : Bool :=
  chain.any fun t => lowerStr ((dget (styleMapFor css t) "text-align").getD "") = "right"

/-- The cumulative inline formatting state of service.py (the frozen
dataclass InlineStyle). -/
structure InlineStyle where
  bold : Bool
  italic : Bool
  underline : Bool
deriving DecidableEq

/-- The default inline style: all flags off (InlineStyle()). -/
def noStyle : InlineStyle :=
  ⟨false, false, false⟩

/-- One item appended to a paragraph by the inline run builder: a plain
run with its explicit formatting flags, a hard line break, or a hyperlink
run carrying the registered relationship target, its text, its formatting
flags and its colour. -/
inductive InlineItem where
  | run (text : String) (bold italic underline : Bool)
  | brk
  | linkRun (rel : String) (text : String) (bold italic underline : Bool) (color : String)
deriving DecidableEq

/-- Translation of service.py _add_hyperlink: an empty url produces a
plain run bearing the text with the current style and registers nothing; a
non-empty url registers one external relationship for the url and emits a
link run whose text is the given text, with bold and italic copied from
the style, a single underline and the fixed colour.  The second component
lists the external relationship targets registered by the call. -/
def addHyperlink (url text : String) (style : InlineStyle) :
    List InlineItem × List String :=
  if url = "" then
    ([InlineItem.run text style.bold style.italic style.underline], [])
  else
    ([InlineItem.linkRun url text style.bold style.italic true "0000FF"], [url])

mutual
/-- Translation of service.py _process_inline: a non-empty text node emits
one run bearing its raw text with the current flags; the marker elements
recurse with the matching flag forced on; br emits a hard break; an anchor
computes its target and visible text and delegates to the hyperlink
emitter; an inline image is ignored; any other element is transparent. -/
def processInline (node : Node) (style : InlineStyle) : List InlineItem :=
  match node with
  | .text s =>
    if s = "" then [] else [InlineItem.run s style.bold style.italic style.underline]
  | .elem name0 classes attrs children =>
    let name := lowerStr name0
    if name = "strong" || name = "b" then
      processInlineList children ⟨true, style.italic, style.underline⟩
    else if name = "em" || name = "i" then
      processInlineList children ⟨style.bold, true, style.underline⟩
    else if name = "u" then
      processInlineList children ⟨style.bold, style.italic, true⟩
    else if name = "br" then [InlineItem.brk]
    else if name = "a" then
      let url := stripString ((attrOf (.elem name0 classes attrs children) "href").getD "")
      let t := normalizeWs (getTextSp (.elem name0 classes attrs children))
      (addHyperlink url (if t = "" then url else t) style).1
    else if name = "img" then []
    else processInlineList children style

/-- The loop body of _process_inline over the filtered child iterator:
children rejected by _iter_child_nodes contribute nothing. -/
def processInlineList (children : List Node) (style : InlineStyle) : List InlineItem :=
  match children with
  | [] => []
  | c :: cs =>
    (if keepChild c then processInline c style else []) ++ processInlineList cs style
end

/-- One block appended to a container by the tree walker.  A layout table
records, besides its dimensions, the grid of cell nodes placed at each
position (absent positions are the padded empty cells); the source then
converts each present cell through the container walk, which is the same
recursion the walker below performs on ordinary containers. -/
inductive Block where
  | textPara (text : String)
  | para (styleName : Option String) (items : List InlineItem)
  | heading (level : Nat) (asHeading : Bool) (text : String)
      (sizePt : Option Nat) (fontBold : Option Bool) (fontColor : Option String)
  | image (widthEmu : Option Int) (alignRight : Bool) (fmt : String) (payload : String)
  | dataTable (rows cols : Nat) (grid : List (List String))
  | layoutTable (rows cols : Nat) (cells : List (List (Option Node)))

/-- The guard of the heading-level conditional of _process_heading line
401: the tag name is non-empty, starts with the letter h, and its whole
suffix is a non-empty ASCII digit run (the isdigit test; the non-ASCII
digits Python isdigit would also accept make the source raise inside int
and never reach a level, and no such name reaches this function through
the block dispatch). -/
def hSuffixDigits (name : String) : Bool :=
  match name.data with
  | 'h' :: c :: rest => (c :: rest).all Char.isDigit
  | _ => false

/-- The raw heading level of _process_heading line 401: under the guard,
the value of the first suffix digit (int applied to the character at index
one), otherwise the default two.  Only the names h1 to h6 reach this
function through the block dispatch. -/
def headingLevelRaw (name : String) : Nat :=
  if hSuffixDigits name then
    match name.data with
    | _ :: c :: _ => c.toNat - 48
    | _ => 2
  else 2

/-- The clamped heading level of _process_heading line 402. -/
def headingLevel (name : String) : Nat :=
  max 1 (min 6 (headingLevelRaw name))

/-- Translation of service.py _process_heading: clamp the level, normalise
the inner text, emit nothing when it is empty, and otherwise emit a
heading paragraph (a plain paragraph when the container has no heading
capability) whose first run carries the fixed per-level font overrides. -/
def processHeading (canHead : Bool) (tag : Node) : Option Block :=
  match tag with
  | .text _ => none
  | .elem name _ _ _ =>
    let level := headingLevel name
    let text := normalizeWs (getTextSp tag)
    if text = "" then none
    else
      let style : Option Nat × Option Bool × Option String :=
        if level = 1 then (some 18, some true, none)
        else if level = 2 then (some 15, some true, some "0066CC")
        else if level = 3 then (some 13, some true, none)
        else (none, none, none)
      some (Block.heading level canHead text style.1 style.2.1 style.2.2)

/-- Cell lists of the rows of a table (the row_cells list of
_process_table and _process_layout_table_as_docx_table). -/
def rowCellsOf (t : Node) : List (List Node) :=
  (trRows t).map directCells

/-- Maximum cell count over the rows (the max_cols loop). -/
def maxColsOf (t : Node) : Nat :=
  (rowCellsOf t).foldl (fun a cs => max a cs.length) 0

/-- Translation of service.py _process_table (the data-table path): no
rows or no cells emit nothing; otherwise a rows-by-columns grid whose
entry is the normalised plain text of the cell at that position, and the
empty string where the row has fewer cells than the grid. -/
def processTable (t : Node) : Option Block :=
  let rows := trRows t
  if rows.isEmpty then none
  else
    let rowCells := rowCellsOf t
    let maxCols := maxColsOf t
    if maxCols = 0 then none
    else
      some (Block.dataTable rows.length maxCols
        (rowCells.map fun cs =>
          (List.range maxCols).map fun j =>
            match cs.get? j with
            | some c => normalizeWs (getTextSp c)
            | none => ""))

/-- Translation of service.py _process_layout_table_as_docx_table up to
the per-cell container walk: the same row and column derivation as the
data path, the grid holding the cell node present at each position and
nothing at the padded positions (which stay as cleared empty cells). -/
def processLayoutShape (t : Node) : Option Block :=
  let rows := trRows t
  if rows.isEmpty then none
  else
    let rowCells := rowCellsOf t
    let maxCols := maxColsOf t
    if maxCols = 0 then none
    else
      some (Block.layoutTable rows.length maxCols
        (rowCells.map fun cs => (List.range maxCols).map fun j => cs.get? j))

/-- Translation of service.py _add_image: an empty source or a source that
is not a self-contained data image emits nothing; otherwise a picture
paragraph with the resolved width in EMU (nothing meaning natural size)
and the right alignment inferred from the ancestor chain.  The byte-level
base64 decoding and the picture encoder, whose failures silently skip the
image, live below the markup-to-structure boundary modelled here. -/
def addImage (css : CssRules) (chainUp : List Node) (img : Node) : Option Block :=
  let src := stripString ((attrOf img "src").getD "")
  if src = "" then none
  else
    match matchDataImage src with
    | none => none
    | some (fmt, payload) =>
      some (Block.image ((resolveImgWidthPx css img).map pxToEmu)
        (closestTextAlignRight css (img :: chainUp)) fmt payload)

/-- The block-tag set of service.py. -/
def BLOCK_TAGS : List String :=
  ["h1", "h2", "h3", "h4", "h5", "h6", "p", "div", "section", "article",
   "header", "footer", "table", "ul", "ol", "li", "img", "hr"]

/-- The horizontal-rule placeholder paragraph: twenty em-dashes. -/
def hrText : String :=
  ⟨List.replicate 20 '—'⟩

/-- The nested-block test of _process_list line 329: an element whose
lowercased name is a block tag and not one of the listed inline names. -/
def isLiBlockChild (c : Node) : Bool :=
  match c with
  | .text _ => false
  | .elem name _ _ _ =>
    let n := lowerStr name
    BLOCK_TAGS.contains n &&
      !(["strong", "b", "em", "i", "u", "a", "br", "span"].contains n)

mutual
/-- Translation of service.py _process_block: dispatch one element by its
lowercased tag name to the heading, paragraph, image, rule, list, table or
transparent-container handler, returning the blocks appended to the
container.  The chainUp argument is the ancestor chain above the element,
used by the image handler for alignment; canHead records whether the
container supports headings. -/
def processBlock (css : CssRules) (canHead : Bool) (chainUp : List Node) (t : Node) :
    List Block :=
  match t with
  | .text _ => []
  | .elem name0 classes attrs children =>
    let name := lowerStr name0
    if ["h1", "h2", "h3", "h4", "h5", "h6"].contains name then
      (processHeading canHead (.elem name0 classes attrs children)).toList
    else if name = "p" then
      [Block.para none (processInlineList children noStyle)]
    else if name = "img" then
      (addImage css chainUp (.elem name0 classes attrs children)).toList
    else if name = "hr" then
      [Block.textPara hrText]
    else if name = "ul" || name = "ol" then
      processLis css canHead (Node.elem name0 classes attrs children :: chainUp)
        (name = "ol") children
    else if name = "li" then
      [Block.para (some "List Bullet") (processInlineList children noStyle)]
    else if name = "table" then
      if isRealTable (.elem name0 classes attrs children) then
        (processTable (.elem name0 classes attrs children)).toList
      else
        (processLayoutShape (.elem name0 classes attrs children)).toList
    else
      processChildren css canHead (Node.elem name0 classes attrs children :: chainUp)
        children
termination_by structural t

/-- Translation of service.py _process_container over a child list: each
kept text child becomes its own paragraph when its normalisation is
non-empty, each block-tag child is dispatched as a block, and each loose
inline element is wrapped in a fresh paragraph. -/
def processChildren (css : CssRules) (canHead : Bool) (chainUp : List Node)
    (children : List Node) : List Block :=
  match children with
  | [] => []
  | c :: cs =>
    (match c with
     | .text s =>
       if keepChild (.text s) then
         (let t := normalizeWs s
          if t = "" then [] else [Block.textPara t])
       else []
     | .elem name0 classes attrs kids =>
       let name := lowerStr name0
       if BLOCK_TAGS.contains name then
         processBlock css canHead chainUp (.elem name0 classes attrs kids)
       else
         [Block.para none (processInline (.elem name0 classes attrs kids) noStyle)])
      ++ processChildren css canHead chainUp cs
termination_by structural children

/-- Translation of service.py _process_list: one paragraph per direct li
child in the list style, with nested block children of the item walked as
blocks after the item paragraph. -/
def processLis (css : CssRules) (canHead : Bool) (chainUp : List Node) (ordered : Bool)
    (children : List Node) : List Block :=
  match children with
  | [] => []
  | c :: cs =>
    (match c with
     | .text _ => []
     | .elem name classes attrs kids =>
       if name = "li" then
         let pair := processLiKids css canHead (Node.elem name classes attrs kids :: chainUp) kids
         Block.para (some (if ordered then "List Number" else "List Bullet")) pair.1
           :: pair.2
       else [])
      ++ processLis css canHead chainUp ordered cs
termination_by structural children

/-- The loop of _process_list over one item: kept inline children feed the
item paragraph, kept nested block children are dispatched as blocks. -/
def processLiKids (css : CssRules) (canHead : Bool) (chainUp : List Node)
    (kids : List Node) : List InlineItem × List Block :=
  match kids with
  | [] => ([], [])
  | c :: cs =>
    let rest := processLiKids css canHead chainUp cs
    if keepChild c then
      if isLiBlockChild c then
        (rest.1, processBlock css canHead chainUp c ++ rest.2)
      else
        (processInline c noStyle ++ rest.1, rest.2)
    else rest
termination_by structural kids
end

/-- The root walk of _html_to_docx_sync line 528: the document container
walks the children of the root element. -/
def convertRoot (css : CssRules) (root : Node) : List Block :=
  processChildren css true [root] root.childrenOf

/-- The conversion failure raised by _html_to_docx_sync (the
HTMLConversionError of exceptions.py, carrying its detail message). -/
structure HTMLConversionError where
  detail : String
deriving DecidableEq

/-- The message head prepended by the failure boundary of
_html_to_docx_sync line 536. -/
def convErrMsg : String :=
  "Erro na conversão HTML para DOCX: "

/-- The failure boundary of _html_to_docx_sync (lines 503 to 536): the
whole body, here an arbitrary fallible computation from the input text to
an output buffer, runs inside one handler; a successful body returns its
buffer unchanged, and any error is re-raised as a single conversion
failure carrying the description of the original error. -/
def htmlToDocxSync {β : Type} (body : String → Except String β) (html : String) :
    Except HTMLConversionError β :=
  match body html with
  | .ok buffer => .ok buffer
  | .error e => .error ⟨convErrMsg ++ e⟩

/-- One conversion request of the concurrency model: the style-block text
of its document and the image element whose resolved width serves as the
observation of the traversal. -/
structure ConvJob where
  cssText : String
  img : Node

/-- The first phase of _html_to_docx_sync (line 508): parse the style
blocks and assign the result to the module-wide table _CSS_CLASS_STYLES. -/
def setupPhase (j : ConvJob) : CssRules :=
  parseCssClassRules j.cssText

/-- The traversal phase as far as the observation goes: resolve the image
width through _style_map_for, which reads whatever table currently sits in
the module state. -/
def observeWidth (g : CssRules) (j : ConvJob) : Option Int :=
  (resolveImgWidthPx g j.img).map pxToEmu

/-- A conversion running alone: its traversal reads the table its own
setup phase just wrote. -/
def serialObs (j : ConvJob) : Option Int :=
  observeWidth (setupPhase j) j

/-- The process state shared by two concurrent conversions: the single
module-wide rule table, and per conversion a phase counter and the
observation once produced. -/
structure SharedState where
  g : CssRules
  pcA : Nat
  outA : Option (Option Int)
  pcB : Nat
  outB : Option (Option Int)

/-- The initial process state: the table starts empty (service.py line
49), neither conversion has run. -/
def initShared : SharedState :=
  ⟨[], 0, none, 0, none⟩

/-- One step of one conversion: phase zero writes its parsed rules into
the shared table, phase one reads the shared table and records the
observation, later phases do nothing. -/
def stepConv (j : ConvJob) (pc : Nat) (g : CssRules) :
    CssRules × Nat × Option (Option Int) :=
  if pc = 0 then (setupPhase j, 1, none)
  else if pc = 1 then (g, 2, some (observeWidth g j))
  else (g, pc, none)

/-- Run the two conversions under a schedule: each entry names the
conversion (false for the first, true for the second) that performs its
next phase on the shared state.  This is the interleaving the worker pool
of convert_html_to_docx permits. -/
def runSched (jA jB : ConvJob) : List Bool → SharedState → SharedState
  | [], s => s
  | tid :: rest, s =>
    if tid then
      let r := stepConv jB s.pcB s.g
      runSched jA jB rest
        { s with g := r.1, pcB := r.2.1,
                 outB := match r.2.2 with | some o => some o | none => s.outB }
    else
      let r := stepConv jA s.pcA s.g
      runSched jA jB rest
        { s with g := r.1, pcA := r.2.1,
                 outA := match r.2.2 with | some o => some o | none => s.outA }

/-- A tr element. -/
def IsTrElem (r : Node) : Prop :=
  ∃ classes attrs children, r = Node.elem "tr" classes attrs children

/-- A td or th element. -/
def IsCellElem (c : Node) : Prop :=
  ∃ name classes attrs children,
    c = Node.elem name classes attrs children ∧ (name = "td" ∨ name = "th")

/-- Reachability from a child list without crossing a table element: this
is the specification-side reading of rows whose nearest enclosing table is
the table owning the child list. -/
inductive DescViaNoTable : List Node → Node → Prop where
  | here {cs : List Node} {r : Node} : r ∈ cs → DescViaNoTable cs r
  | step {cs : List Node} {r : Node} (name : String) (classes : List String)
      (attrs : List (String × String)) (children : List Node) :
      Node.elem name classes attrs children ∈ cs → name ≠ "table" →
      DescViaNoTable children r → DescViaNoTable cs r

/-- Pointwise ordering of inline styles: the second style keeps every flag
the first has set. -/
def styleLe (s t : InlineStyle) : Prop :=
  (s.bold = true → t.bold = true) ∧ (s.italic = true → t.italic = true) ∧
    (s.underline = true → t.underline = true)

/-- An emitted item carries at least the flags of the given style: a plain
run keeps each set flag, a link run keeps bold and italic and is always
underlined, a break carries no flags. -/
def StyleLeq (st : InlineStyle) : InlineItem → Prop
  | .run _ b i u =>
    (st.bold = true → b = true) ∧ (st.italic = true → i = true) ∧
      (st.underline = true → u = true)
  | .brk => True
  | .linkRun _ _ b i u _ =>
    (st.bold = true → b = true) ∧ (st.italic = true → i = true) ∧ u = true

/-- The bold flag of an emitted run or link run is on. -/
def BoldHolds : InlineItem → Prop
  | .run _ b _ _ => b = true
  | .brk => True
  | .linkRun _ _ b _ _ _ => b = true

/-- The italic flag of an emitted run or link run is on. -/
def ItalicHolds : InlineItem → Prop
  | .run _ _ i _ => i = true
  | .brk => True
  | .linkRun _ _ _ i _ _ => i = true

/-- The underline flag of an emitted run or link run is on. -/
def UnderlineHolds : InlineItem → Prop
  | .run _ _ _ u => u = true
  | .brk => True
  | .linkRun _ _ _ _ u _ => u = true

/-- A child of an element is smaller than the element. -/
theorem sizeOf_mem_children {c : Node} {name : String} {classes : List String}
    {attrs : List (String × String)} {children : List Node}
    (h : c ∈ children) : sizeOf c < sizeOf (Node.elem name classes attrs children) := by
  have h1 := List.sizeOf_lt_of_mem h
  simp only [Node.elem.sizeOf_spec]
  omega

/-- Every item of the filtered inline loop comes from a kept child. -/
theorem mem_processInlineList {cs : List Node} {st : InlineStyle} {it : InlineItem}
    (h : it ∈ processInlineList cs st) :
    ∃ c, c ∈ cs ∧ keepChild c = true ∧ it ∈ processInline c st := by
  induction cs with
  | nil => simp [processInlineList] at h
  | cons c cs ih =>
    simp only [processInlineList, List.mem_append] at h
    rcases h with h1 | h2
    · by_cases hk : keepChild c
      · exact ⟨c, List.mem_cons_self c cs, hk, by simpa [hk] using h1⟩
      · simp [hk] at h1
    · obtain ⟨d, hd, hk, hit⟩ := ih h2
      exact ⟨d, List.mem_cons_of_mem c hd, hk, hit⟩

/-- Transfer of the flag-keeping relation along a pointwise style bound. -/
theorem styleLeq_of_styleLe {s t : InlineStyle} {it : InlineItem}
    (hle : styleLe s t) (h : StyleLeq t it) : StyleLeq s it := by
  obtain ⟨hb, hi, hu⟩ := hle
  cases it with
  | run text b i u =>
    obtain ⟨h1, h2, h3⟩ := h
    exact ⟨fun x => h1 (hb x), fun x => h2 (hi x), fun x => h3 (hu x)⟩
  | brk => trivial
  | linkRun rel text b i u color =>
    obtain ⟨h1, h2, h3⟩ := h
    exact ⟨fun x => h1 (hb x), fun x => h2 (hi x), h3⟩

/-- Membership in the row collection over a list factors through one of
its nodes. -/
theorem mem_trRowsL_iff_exists {cs : List Node} {r : Node} :
    r ∈ trRowsL cs ↔ ∃ c, c ∈ cs ∧ r ∈ trRowsA c := by
  induction cs with
  | nil => simp [trRowsL]
  | cons c cs ih =>
    simp only [trRowsL, List.mem_append, ih, List.mem_cons]
    constructor
    · rintro (h | ⟨d, hd, hr⟩)
      · exact ⟨c, Or.inl rfl, h⟩
      · exact ⟨d, Or.inr hd, hr⟩
    · rintro ⟨d, hd | hd, hr⟩
      · subst hd; exact Or.inl hr
      · exact Or.inr ⟨d, hd, hr⟩

/-- A tr element of the list itself is collected. -/
theorem mem_trRowsL_of_self {cs : List Node} {r : Node}
    (htr : IsTrElem r) (hmem : r ∈ cs) : r ∈ trRowsL cs := by
  obtain ⟨classes, attrs, children, rfl⟩ := htr
  refine mem_trRowsL_iff_exists.2 ⟨_, hmem, ?_⟩
  simp [trRowsA]

/-- Rows found below a non-table element of the list are collected. -/
theorem mem_trRowsL_of_step {cs : List Node} {r : Node} {name : String}
    {classes : List String} {attrs : List (String × String)} {children : List Node}
    (hmem : Node.elem name classes attrs children ∈ cs) (hn : name ≠ "table")
    (hr : r ∈ trRowsL children) : r ∈ trRowsL cs := by
  refine mem_trRowsL_iff_exists.2 ⟨_, hmem, ?_⟩
  simp only [trRowsA, if_neg hn]
  exact List.mem_append.2 (Or.inr hr)

/-- Reachability is preserved when the child list grows. -/
theorem descViaNoTable_mono {cs cs' : List Node} {r : Node}
    (hsub : ∀ x, x ∈ cs → x ∈ cs') (h : DescViaNoTable cs r) : DescViaNoTable cs' r := by
  induction h with
  | here hm => exact DescViaNoTable.here (hsub _ hm)
  | step name classes attrs children hm hn _ ih =>
    exact DescViaNoTable.step name classes attrs children (hsub _ hm) hn
      (by assumption)

/-- The collected rows are exactly the tr elements reachable without
crossing a table boundary. -/
theorem mem_trRowsL_iff {cs : List Node} {r : Node} :
    r ∈ trRowsL cs ↔ (IsTrElem r ∧ DescViaNoTable cs r) := by
  constructor
  · have key : ∀ k (cs : List Node) (r : Node), sizeOf cs ≤ k → r ∈ trRowsL cs →
        IsTrElem r ∧ DescViaNoTable cs r := by
      intro k
      induction k with
      | zero =>
        intro cs r hk h
        cases cs with
        | nil => simp [trRowsL] at h
        | cons c cs => simp at hk
      | succ k ih =>
        intro cs r hk h
        obtain ⟨c, hc, hr⟩ := mem_trRowsL_iff_exists.1 h
        match c with
        | .text s => simp [trRowsA] at hr
        | .elem name classes attrs children =>
          by_cases hn : name = "table"
          · simp [trRowsA, hn] at hr
          · simp only [trRowsA, if_neg hn, List.mem_append] at hr
            rcases hr with hr | hr
            · have heq : r = Node.elem name classes attrs children := by
                by_cases htr : name = "tr"
                · simpa [htr] using hr
                · simp [htr] at hr
              have htr : name = "tr" := by
                by_cases htr : name = "tr"
                · exact htr
                · simp [htr] at hr
              subst heq
              exact ⟨⟨classes, attrs, children, by rw [htr]⟩, DescViaNoTable.here hc⟩
            · have hsz : sizeOf children ≤ k := by
                have h1 := List.sizeOf_lt_of_mem hc
                have h2 : sizeOf children < sizeOf (Node.elem name classes attrs children) := by
                  simp only [Node.elem.sizeOf_spec]; omega
                omega
              obtain ⟨h1, h2⟩ := ih children r hsz hr
              exact ⟨h1, DescViaNoTable.step name classes attrs children hc hn h2⟩
    exact fun h => key (sizeOf cs) cs r (Nat.le_refl _) h
  · rintro ⟨htr, hdesc⟩
    induction hdesc with
    | here hm => exact mem_trRowsL_of_self htr hm
    | step name classes attrs children hm hn _ ih =>
      exact mem_trRowsL_of_step hm hn (ih htr)

/-- The seed of a left max fold bounds nothing above the result, and every
element is bounded by the result. -/
theorem foldl_max_bounds (l : List Nat) (a : Nat) :
    a ≤ l.foldl max a ∧ ∀ x ∈ l, x ≤ l.foldl max a := by
  induction l generalizing a with
  | nil => simp
  | cons x xs ih =>
    obtain ⟨h1, h2⟩ := ih (max a x)
    refine ⟨le_trans (Nat.le_max_left a x) h1, ?_⟩
    intro y hy
    rcases List.mem_cons.1 hy with rfl | hy
    · exact le_trans (Nat.le_max_right a y) h1
    · exact h2 y hy

/-- A left max fold returns its seed or one of the elements. -/
theorem foldl_max_attained (l : List Nat) (a : Nat) :
    l.foldl max a = a ∨ l.foldl max a ∈ l := by
  induction l generalizing a with
  | nil => exact Or.inl rfl
  | cons x xs ih =>
    rcases ih (max a x) with h | h
    · by_cases hax : a ≤ x
      · right
        rw [List.foldl_cons, h, Nat.max_eq_right hax]
        exact List.mem_cons_self x xs
      · left
        rw [List.foldl_cons, h, Nat.max_eq_left (Nat.le_of_not_le hax)]
    · right
      exact List.mem_cons_of_mem x h

/-- Every item the inline run builder emits keeps every flag of the style
it was invoked with: flags only accumulate along the descent. -/
theorem processInline_styleLeq :
    ∀ (n : Node) (st : InlineStyle) (it : InlineItem),
      it ∈ processInline n st → StyleLeq st it := by
  have key : ∀ (k : Nat) (n : Node), sizeOf n ≤ k → ∀ st it,
      it ∈ processInline n st → StyleLeq st it := by
    intro k
    induction k with
    | zero =>
      intro n hk
      exfalso
      cases n <;> simp only [Node.text.sizeOf_spec, Node.elem.sizeOf_spec] at hk <;> omega
    | succ k ih =>
      intro n hk st it hit
      match n with
      | .text s =>
        by_cases hs : s = ""
        · simp [processInline, hs] at hit
        · simp only [processInline, if_neg hs, List.mem_singleton] at hit
          subst hit
          exact ⟨fun h => h, fun h => h, fun h => h⟩
      | .elem name0 classes attrs children =>
        have hsub : ∀ c ∈ children, sizeOf c ≤ k := by
          intro c hc
          have h1 := List.sizeOf_lt_of_mem hc
          simp only [Node.elem.sizeOf_spec] at hk
          omega
        simp only [processInline] at hit
        split_ifs at hit with h1 h2 h3 h4 h5 h6 h7
        · obtain ⟨c, hc, _, hit'⟩ := mem_processInlineList hit
          have hrec := ih c (hsub c hc) ⟨true, st.italic, st.underline⟩ it hit'
          exact styleLeq_of_styleLe (s := st) (t := ⟨true, st.italic, st.underline⟩)
            ⟨fun _ => rfl, fun h => h, fun h => h⟩ hrec
        · obtain ⟨c, hc, _, hit'⟩ := mem_processInlineList hit
          have hrec := ih c (hsub c hc) ⟨st.bold, true, st.underline⟩ it hit'
          exact styleLeq_of_styleLe (s := st) (t := ⟨st.bold, true, st.underline⟩)
            ⟨fun h => h, fun _ => rfl, fun h => h⟩ hrec
        · obtain ⟨c, hc, _, hit'⟩ := mem_processInlineList hit
          have hrec := ih c (hsub c hc) ⟨st.bold, st.italic, true⟩ it hit'
          exact styleLeq_of_styleLe (s := st) (t := ⟨st.bold, st.italic, true⟩)
            ⟨fun h => h, fun h => h, fun _ => rfl⟩ hrec
        · rw [List.mem_singleton] at hit
          subst hit
          trivial
        · rw [addHyperlink] at hit
          split_ifs at hit with hurl <;> rw [List.mem_singleton] at hit <;> subst hit
          · exact ⟨fun h => h, fun h => h, fun h => h⟩
          · exact ⟨fun h => h, fun h => h, rfl⟩
        · rw [addHyperlink] at hit
          split_ifs at hit with hurl <;> rw [List.mem_singleton] at hit <;> subst hit
          · exact ⟨fun h => h, fun h => h, fun h => h⟩
          · exact ⟨fun h => h, fun h => h, rfl⟩
        · exact absurd hit (List.not_mem_nil it)
        · obtain ⟨c, hc, _, hit'⟩ := mem_processInlineList hit
          exact ih c (hsub c hc) st it hit'
  exact fun n => key (sizeOf n) n (Nat.le_refl _)

/-- An item that keeps the flags of a bold style is bold. -/
theorem boldHolds_of_styleLeq {i u : Bool} {it : InlineItem}
    (h : StyleLeq ⟨true, i, u⟩ it) : BoldHolds it := by
  cases it with
  | run _ _ _ _ => exact h.1 rfl
  | brk => trivial
  | linkRun _ _ _ _ _ _ => exact h.1 rfl

/-- An item that keeps the flags of an italic style is italic. -/
theorem italicHolds_of_styleLeq {b u : Bool} {it : InlineItem}
    (h : StyleLeq ⟨b, true, u⟩ it) : ItalicHolds it := by
  cases it with
  | run _ _ _ _ => exact h.2.1 rfl
  | brk => trivial
  | linkRun _ _ _ _ _ _ => exact h.2.1 rfl

/-- An item that keeps the flags of an underlined style is underlined. -/
theorem underlineHolds_of_styleLeq {b i : Bool} {it : InlineItem}
    (h : StyleLeq ⟨b, i, true⟩ it) : UnderlineHolds it := by
  cases it with
  | run _ _ _ _ => exact h.2.2 rfl
  | brk => trivial
  | linkRun _ _ _ _ _ _ => exact h.2.2

/-- C1, counterexample: the inline run builder does not whitespace-normalize
text nodes.  The text node holding two words padded by runs of spaces
produces a run whose text is the raw node text, while its normalization
would be the two words separated by one space; the two differ, refuting
the claimed run text. -/
theorem c1_inline_text_not_normalized_cex :
    processInline (.text "  a   b  ") noStyle =
      [InlineItem.run "  a   b  " false false false]
    ∧ normalizeWs "  a   b  " = "a b"
    ∧ ("  a   b  " : String) ≠ "a b" :=
  ⟨rfl, rfl, by decide⟩

/-- C1, amended: for every non-empty text node the inline run builder emits
exactly one run bearing the raw node text unchanged, decorated with the
current style flags; whitespace normalization is not applied on this path
(the child iterator only drops children that are entirely whitespace). -/
theorem c1_inline_text_run_verbatim (s : String) (st : InlineStyle) (h : s ≠ "") :
    processInline (.text s) st = [InlineItem.run s st.bold st.italic st.underline] := by
  simp [processInline, h]

/-- Witness for the amended C1 at a concrete padded text node. -/
theorem c1_inline_text_run_verbatim_witness :
    processInline (.text "  a   b  ") ⟨true, false, false⟩ =
      [InlineItem.run "  a   b  " true false false] :=
  c1_inline_text_run_verbatim "  a   b  " ⟨true, false, false⟩ (by decide)

/-- C2: the class-style table is stored in the process-wide module state
and conversions run on a worker pool, so one conversion can observe the
table written by another.  Run alone, the conversion whose style block
gives its image class a 192 pixel max-width resolves the width 1828800
EMU; under the interleaving in which the second conversion performs its
setup between the first conversion's setup and traversal, the first
conversion resolves no width at all, because its traversal reads the
empty table of the second conversion. -/
theorem c2_shared_style_table_interference :
    serialObs ⟨".r\x7bmax-width:192px\x7d", .elem "img" ["r"] [] []⟩ = some 1828800
    ∧ (runSched ⟨".r\x7bmax-width:192px\x7d", .elem "img" ["r"] [] []⟩
        ⟨"", .elem "img" [] [] []⟩ [false, true, false, true] initShared).outA = some none
    ∧ (some none : Option (Option Int)) ≠ some (some 1828800) :=
  ⟨rfl, rfl, by decide⟩

/-- C3: the sole failure boundary of the conversion entry point.  When the
body raises, the entry point raises exactly one conversion failure whose
detail carries the fixed message head followed by the description of the
original error, and no buffer is returned on that path; when the body
succeeds, its buffer is returned unchanged. -/
theorem c3_single_failure_boundary {β : Type} (body : String → Except String β)
    (h : String) :
    (∀ e, body h = .error e →
        htmlToDocxSync body h = .error ⟨convErrMsg ++ e⟩
        ∧ ∀ b, htmlToDocxSync body h ≠ .ok b)
    ∧ (∀ b, body h = .ok b → htmlToDocxSync body h = .ok b) := by
  refine ⟨fun e he => ⟨?_, fun b hb => ?_⟩, fun b hb => ?_⟩
  · rw [htmlToDocxSync, he]
  · rw [htmlToDocxSync, he] at hb
    exact Except.noConfusion hb
  · rw [htmlToDocxSync, hb]

/-- Witness for C3 at a concrete failing body and a concrete succeeding
body. -/
theorem c3_single_failure_boundary_witness :
    htmlToDocxSync (fun _ => (Except.error "boom" : Except String Unit)) "x" =
      .error ⟨convErrMsg ++ "boom"⟩
    ∧ htmlToDocxSync (fun _ => (Except.ok () : Except String Unit)) "x" = .ok () :=
  ⟨((c3_single_failure_boundary (fun _ => (Except.error "boom" : Except String Unit))
      "x").1 "boom" rfl).1,
   (c3_single_failure_boundary (fun _ => (Except.ok () : Except String Unit)) "x").2 () rfl⟩

/-- C6: hyperlink emission.  An empty url yields a plain run bearing the
text with the current bold, italic and underline flags and registers no
relationship; a non-empty url registers one external relationship for the
url and yields a link run whose text is the given text, with single
underline, the fixed link colour, and bold and italic taken from the
inherited style.  The anchor cases of the inline builder ground the text
computation: the visible text is the normalized inner text, and the url
itself when that text is empty. -/
theorem c6_hyperlink_emission (url text : String) (st : InlineStyle) :
    (url = "" → addHyperlink url text st =
        ([InlineItem.run text st.bold st.italic st.underline], []))
    ∧ (url ≠ "" → addHyperlink url text st =
        ([InlineItem.linkRun url text st.bold st.italic true "0000FF"], [url]))
    ∧ processInline (.elem "a" [] [] [.text " hi  there "]) st =
        [InlineItem.run "hi there" st.bold st.italic st.underline]
    ∧ processInline (.elem "a" [] [("href", " http://x ")] [.text "hi"]) st =
        [InlineItem.linkRun "http://x" "hi" st.bold st.italic true "0000FF"]
    ∧ processInline (.elem "a" [] [("href", "http://x")] []) st =
        [InlineItem.linkRun "http://x" "http://x" st.bold st.italic true "0000FF"] :=
  ⟨fun h => by simp [addHyperlink, h],
   fun h => by simp [addHyperlink, h],
   rfl, rfl, rfl⟩

/-- Witness for C6 at a concrete empty and a concrete non-empty url. -/
theorem c6_hyperlink_emission_witness :
    addHyperlink "" "t" noStyle = ([InlineItem.run "t" false false false], [])
    ∧ addHyperlink "http://u" "t" noStyle =
        ([InlineItem.linkRun "http://u" "t" false false true "0000FF"], ["http://u"]) :=
  ⟨(c6_hyperlink_emission "" "t" noStyle).1 rfl,
   (c6_hyperlink_emission "http://u" "t" noStyle).2.1 (by decide)⟩

/-- C7: inline flag monotonicity.  Every item the inline builder emits
keeps every flag of the style it was invoked with (descendants only add
flags, never clear one); every item emitted inside a bold, italic or
underline marker element carries the corresponding flag; and the nested
bold-italic example yields exactly two runs, the first bold only and the
second bold and italic. -/
theorem c7_inline_or_semantics :
    (∀ (n : Node) (st : InlineStyle) (it : InlineItem),
        it ∈ processInline n st → StyleLeq st it)
    ∧ (∀ (name0 : String) (classes : List String) (attrs : List (String × String))
        (children : List Node) (st : InlineStyle) (it : InlineItem),
        it ∈ processInline (.elem name0 classes attrs children) st →
          ((lowerStr name0 = "strong" ∨ lowerStr name0 = "b") → BoldHolds it)
          ∧ ((lowerStr name0 = "em" ∨ lowerStr name0 = "i") → ItalicHolds it)
          ∧ (lowerStr name0 = "u" → UnderlineHolds it))
    ∧ processInline (.elem "b" [] [] [.text "a", .elem "i" [] [] [.text "b"]]) noStyle =
        [InlineItem.run "a" true false false, InlineItem.run "b" true true false] := by
  refine ⟨processInline_styleLeq, ?_, rfl⟩
  intro name0 classes attrs children st it hit
  refine ⟨fun hname => ?_, fun hname => ?_, fun hname => ?_⟩
  · have hit' : it ∈ processInlineList children ⟨true, st.italic, st.underline⟩ := by
      rcases hname with h | h <;> simpa [processInline, h] using hit
    obtain ⟨c, _, _, hc⟩ := mem_processInlineList hit'
    exact boldHolds_of_styleLeq (processInline_styleLeq c _ it hc)
  · have hit' : it ∈ processInlineList children ⟨st.bold, true, st.underline⟩ := by
      rcases hname with h | h <;> simpa [processInline, h] using hit
    obtain ⟨c, _, _, hc⟩ := mem_processInlineList hit'
    exact italicHolds_of_styleLeq (processInline_styleLeq c _ it hc)
  · have hit' : it ∈ processInlineList children ⟨st.bold, st.italic, true⟩ := by
      simpa [processInline, hname] using hit
    obtain ⟨c, _, _, hc⟩ := mem_processInlineList hit'
    exact underlineHolds_of_styleLeq (processInline_styleLeq c _ it hc)

/-- Witness for C7 at a concrete run emitted under a bold style. -/
theorem c7_inline_or_semantics_witness :
    StyleLeq ⟨true, false, false⟩ (InlineItem.run "x" true false false) :=
  c7_inline_or_semantics.1 (.text "x") ⟨true, false, false⟩
    (InlineItem.run "x" true false false) (by simp [processInline])

/-- C9: heading levels and styling.  The level of each of the six heading
tags is its numeric suffix; a name whose suffix is not a digit run gets
the default level two; every emitted heading paragraph carries the
normalized non-empty inner text and the fixed per-level styling (level
one: 18 point bold; level two: 15 point bold with the fixed accent
colour; level three: 13 point bold; levels four to six: no override); and
a tag with an unparsable suffix is processed exactly like a level-two
heading, never failing. -/
theorem c9_heading_levels :
    (headingLevel "h1" = 1 ∧ headingLevel "h2" = 2 ∧ headingLevel "h3" = 3
      ∧ headingLevel "h4" = 4 ∧ headingLevel "h5" = 5 ∧ headingLevel "h6" = 6
      ∧ headingLevel "h7" = 6 ∧ headingLevel "h9" = 6)
    ∧ (∀ name, hSuffixDigits name = false → headingLevel name = 2)
    ∧ (∀ (canHead : Bool) (name : String) (classes : List String)
        (attrs : List (String × String)) (children : List Node)
        (lvl : Nat) (ah : Bool) (text : String) (sz : Option Nat) (fb : Option Bool)
        (fc : Option String),
        processHeading canHead (.elem name classes attrs children) =
          some (.heading lvl ah text sz fb fc) →
          lvl = headingLevel name
          ∧ 1 ≤ lvl ∧ lvl ≤ 6
          ∧ text = normalizeWs (getTextSp (.elem name classes attrs children))
          ∧ text ≠ ""
          ∧ (lvl = 1 → sz = some 18 ∧ fb = some true ∧ fc = none)
          ∧ (lvl = 2 → sz = some 15 ∧ fb = some true ∧ fc = some "0066CC")
          ∧ (lvl = 3 → sz = some 13 ∧ fb = some true ∧ fc = none)
          ∧ (4 ≤ lvl → sz = none ∧ fb = none ∧ fc = none))
    ∧ (∀ (canHead : Bool) (classes : List String) (attrs : List (String × String))
        (children : List Node),
        processHeading canHead (.elem "hx" classes attrs children) =
          processHeading canHead (.elem "h2" classes attrs children)) := by
  refine ⟨⟨rfl, rfl, rfl, rfl, rfl, rfl, rfl, rfl⟩, ?_, ?_, ?_⟩
  · intro name h
    simp [headingLevel, headingLevelRaw, h]
  · intro canHead name classes attrs children lvl ah text sz fb fc h
    rw [processHeading] at h
    by_cases ht : normalizeWs (getTextSp (Node.elem name classes attrs children)) = ""
    · rw [if_pos ht] at h
      exact Option.noConfusion h
    · rw [if_neg ht] at h
      simp only [Option.some.injEq, Block.heading.injEq] at h
      obtain ⟨hlvl, hah, htext, hsz, hfb, hfc⟩ := h
      subst hlvl hah htext hsz hfb hfc
      refine ⟨rfl, ?_, ?_, rfl, ht, ?_, ?_, ?_, ?_⟩
      · simp only [headingLevel]; omega
      · simp only [headingLevel]; omega
      · intro h1; rw [if_pos h1]; exact ⟨rfl, rfl, rfl⟩
      · intro h2
        rw [if_neg (by omega), if_pos h2]
        exact ⟨rfl, rfl, rfl⟩
      · intro h3
        rw [if_neg (by omega), if_neg (by omega), if_pos h3]
        exact ⟨rfl, rfl, rfl⟩
      · intro h4
        rw [if_neg (by omega), if_neg (by omega), if_neg (by omega)]
        exact ⟨rfl, rfl, rfl⟩
  · intro canHead classes attrs children
    rfl

/-- Witness for C9 at a concrete level-two heading and a concrete
unparsable name. -/
theorem c9_heading_levels_witness :
    2 = headingLevel "h2" ∧ headingLevel "hx" = 2 :=
  ⟨(c9_heading_levels.2.2.1 true "h2" [] [] [.text "T"] 2 true "T"
      (some 15) (some true) (some "0066CC") rfl).1,
   c9_heading_levels.2.1 "hx" rfl⟩

/-- One step of the container loop is the contribution of the head child
followed by the loop over the tail. -/
theorem processChildren_cons (css : CssRules) (canHead : Bool) (chainUp : List Node)
    (c : Node) (l : List Node) :
    processChildren css canHead chainUp (c :: l) =
      processChildren css canHead chainUp [c] ++ processChildren css canHead chainUp l := by
  cases c with
  | text s => simp [processChildren]
  | elem n cl a k => simp [processChildren]

/-- C10: the child iterator drops whitespace-only text children before
dispatch, so such a node contributes nothing: the iterator, the inline
loop and the container loop are unchanged by removing it, and in the
concrete example the whitespace between the two marker siblings yields no
run, no separating space and no paragraph. -/
theorem c10_ws_only_text_dropped :
    (∀ s, stripString s = "" → keepChild (.text s) = false)
    ∧ (∀ (pre post : List Node) (s : String), stripString s = "" →
        iterChildNodes (pre ++ .text s :: post) = iterChildNodes (pre ++ post))
    ∧ (∀ (pre post : List Node) (s : String) (st : InlineStyle), stripString s = "" →
        processInlineList (pre ++ .text s :: post) st = processInlineList (pre ++ post) st)
    ∧ (∀ (pre post : List Node) (s : String) (css : CssRules) (canHead : Bool)
        (chainUp : List Node), stripString s = "" →
        processChildren css canHead chainUp (pre ++ .text s :: post) =
          processChildren css canHead chainUp (pre ++ post))
    ∧ processChildren [] true []
        [.elem "b" [] [] [.text "a"], .text " ", .elem "i" [] [] [.text "b"]] =
        [.para none [.run "a" true false false], .para none [.run "b" false true false]] := by
  refine ⟨?_, ?_, ?_, ?_, rfl⟩
  · intro s h
    simp [keepChild, h]
  · intro pre post s h
    simp [iterChildNodes, List.filter_append, List.filter_cons, keepChild, h]
  · intro pre post s st h
    induction pre with
    | nil => simp [processInlineList, keepChild, h]
    | cons c cs ih =>
      simp only [List.cons_append, processInlineList, List.append_eq]
      rw [ih]
  · intro pre post s css canHead chainUp h
    induction pre with
    | nil =>
      have hk : keepChild (.text s) = false := by simp [keepChild, h]
      simp [processChildren, hk]
    | cons c cs ih =>
      simp only [List.cons_append]
      rw [processChildren_cons css canHead chainUp c (cs ++ Node.text s :: post),
        processChildren_cons css canHead chainUp c (cs ++ post), ih]

/-- Witness for C10 at a concrete whitespace-only text node. -/
theorem c10_ws_only_text_dropped_witness :
    processInlineList [.text " "] noStyle = processInlineList [] noStyle
    ∧ keepChild (.text " ") = false :=
  ⟨c10_ws_only_text_dropped.2.2.1 [] [] " " noStyle rfl,
   c10_ws_only_text_dropped.1 " " rfl⟩

/-- C4: table classification.  A table element is a data table exactly
when it carries the data-table class marker, or contains a th descendant,
or has a border attribute that is non-empty and whose trim is neither
empty nor the digit zero; in particular a table whose only marker is a
border attribute of one is a data table, a bare table is a layout table,
and the block dispatch renders a table through the data path exactly when
the classifier accepts it. -/
theorem c4_table_classification (classes : List String) (attrs : List (String × String))
    (children : List Node) :
    (isRealTable (.elem "table" classes attrs children) = true ↔
      ("data-table" ∈ classes ∨ hasThL children = true ∨
        ∃ b, dget attrs "border" = some b ∧ b ≠ "" ∧ stripString b ≠ "0"
          ∧ stripString b ≠ ""))
    ∧ isRealTable (.elem "table" [] [("border", "1")] []) = true
    ∧ isRealTable (.elem "table" [] [] []) = false
    ∧ (∀ (css : CssRules) (canHead : Bool) (chainUp : List Node),
        processBlock css canHead chainUp (.elem "table" classes attrs children) =
          if isRealTable (.elem "table" classes attrs children) then
            (processTable (.elem "table" classes attrs children)).toList
          else (processLayoutShape (.elem "table" classes attrs children)).toList) := by
  refine ⟨?_, rfl, rfl, fun css canHead chainUp => rfl⟩
  simp only [isRealTable]
  rw [if_neg (by simp)]
  by_cases h1 : classes.contains "data-table"
  · have hm : "data-table" ∈ classes := List.elem_iff.1 h1
    simp [h1, hm]
  · have hm : "data-table" ∉ classes := fun hc => h1 (List.elem_iff.2 hc)
    rw [if_neg (by simpa using h1)]
    by_cases h2 : hasThL children
    · simp [h2, hm]
    · rw [if_neg (by simpa using h2)]
      cases hb : dget attrs "border" with
      | none => simp [hm, h2, hb]
      | some b =>
        simp only [hm, false_or, h2, Bool.false_eq_true, hb, Option.some.injEq, false_or]
        constructor
        · intro h
          simp only [Bool.and_eq_true, decide_eq_true_eq] at h
          exact ⟨b, rfl, h.1.1, h.1.2, h.2⟩
        · rintro ⟨b', rfl, hb1, hb2, hb3⟩
          simp [hb1, hb2, hb3]

/-- Witness for C4: the classifier conditions evaluated at a table whose
border attribute is a single space (truthy but trimming to empty), which
the classifier rejects. -/
theorem c4_table_classification_witness :
    isRealTable (.elem "table" [] [("border", " ")] []) = false := by
  have h := (c4_table_classification [] [("border", " ")] []).1
  by_contra hcl
  have := h.1 (by simpa using hcl)
  rcases this with hm | hth | ⟨b, hb, _, _, hb3⟩
  · simp at hm
  · simp [hasThL] at hth
  · rw [show dget [("border", " ")] "border" = some " " from rfl] at hb
    cases hb
    exact hb3 rfl

/-- C8, counterexample: the width-resolution precedence skips a resolvable
zero.  The image whose style gives a zero max-width and a fifty pixel
width resolves fifty pixels, although the max-width property is present
and resolves to zero, refuting the claimed strict precedence of
max-width over width. -/
theorem c8_zero_maxwidth_cex :
    extractPx (styleMapFor []
      (.elem "img" [] [("style", "max-width:0px;width:50px")] [])) "max-width" = some 0
    ∧ resolveImgWidthPx []
        (.elem "img" [] [("style", "max-width:0px;width:50px")] []) = some 50
    ∧ (some 50 : Option Int) ≠ some 0 :=
  ⟨rfl, rfl, by decide⟩

/-- C8, amended: the embed width is resolved by the first truthy stage, a
stage being falsy when it is absent or resolves to zero: the max-width
pixel length, else the width pixel length, else the integer width
attribute, else the natural image size (no explicit width); any resolved
pixel value converts to physical length at exactly 9525 EMU per pixel,
one ninety-sixth of the 914400 EMU inch, so 192 pixels embed at two
inches. -/
theorem c8_image_width_resolution (css : CssRules) (img : Node) :
    (pyTruthy (extractPx (styleMapFor css img) "max-width") = true →
        resolveImgWidthPx css img = extractPx (styleMapFor css img) "max-width")
    ∧ (pyTruthy (extractPx (styleMapFor css img) "max-width") = false →
        pyTruthy (extractPx (styleMapFor css img) "width") = true →
        resolveImgWidthPx css img = extractPx (styleMapFor css img) "width")
    ∧ (pyTruthy (extractPx (styleMapFor css img) "max-width") = false →
        pyTruthy (extractPx (styleMapFor css img) "width") = false →
        pyTruthy (attrWidthPx img) = true →
        resolveImgWidthPx css img = attrWidthPx img)
    ∧ (pyTruthy (extractPx (styleMapFor css img) "max-width") = false →
        pyTruthy (extractPx (styleMapFor css img) "width") = false →
        pyTruthy (attrWidthPx img) = false →
        resolveImgWidthPx css img = none)
    ∧ (∀ (chainUp : List Node) (w : Option Int) (ar : Bool) (fmt payload : String),
        addImage css chainUp img = some (.image w ar fmt payload) →
          w = (resolveImgWidthPx css img).map pxToEmu)
    ∧ pxToEmu 192 = 2 * 914400 := by
  refine ⟨?_, ?_, ?_, ?_, ?_, by decide⟩
  · intro h1
    rw [resolveImgWidthPx]
    simp only [h1, if_true]
  · intro h1 h2
    rw [resolveImgWidthPx]
    simp only [h1, Bool.false_eq_true, if_false, h2, if_true]
  · intro h1 h2 h3
    rw [resolveImgWidthPx]
    simp only [h1, h2, Bool.false_eq_true, if_false, h3, if_true]
  · intro h1 h2 h3
    rw [resolveImgWidthPx]
    simp only [h1, h2, h3, Bool.false_eq_true, if_false]
  · intro chainUp w ar fmt payload h
    rw [addImage] at h
    by_cases hs : stripString ((attrOf img "src").getD "") = ""
    · rw [if_pos hs] at h
      exact Option.noConfusion h
    · rw [if_neg hs] at h
      cases hmd : matchDataImage (stripString ((attrOf img "src").getD "")) with
      | none => rw [hmd] at h; exact Option.noConfusion h
      | some p =>
        rw [hmd] at h
        simp only [Option.some.injEq, Block.image.injEq] at h
        exact h.1.symm

/-- Witness for the amended C8 at a concrete 192 pixel image. -/
theorem c8_image_width_resolution_witness :
    resolveImgWidthPx [] (.elem "img" [] [("style", "max-width:192px")] []) =
      extractPx (styleMapFor [] (.elem "img" [] [("style", "max-width:192px")] []))
        "max-width" :=
  (c8_image_width_resolution [] (.elem "img" [] [("style", "max-width:192px")] [])).1 rfl

/-- C5: the table grid.  The rows of a table are exactly the tr elements
reachable from its children without crossing a nested table; the cells of
a row are exactly its direct td and th children; and for both table
paths, the emitted grid has one row per collected tr, every grid row has
the common column count, that count is the maximum cell count over the
rows and bounds every row, each position inside a row holds that row's
cell content (normalized text on the data path, the cell node on the
layout path), and each position beyond a short row holds the empty cell,
never an error. -/
theorem c5_table_grid (classes : List String) (attrs : List (String × String))
    (ch : List Node) :
    (∀ r, r ∈ trRows (.elem "table" classes attrs ch) ↔ (IsTrElem r ∧ DescViaNoTable ch r))
    ∧ (∀ (r c : Node), c ∈ directCells r ↔ (c ∈ r.childrenOf ∧ IsCellElem c))
    ∧ (∀ (rows cols : Nat) (grid : List (List String)),
        processTable (.elem "table" classes attrs ch) = some (.dataTable rows cols grid) →
          rows = (trRows (.elem "table" classes attrs ch)).length
          ∧ grid.length = rows
          ∧ (∀ cs ∈ rowCellsOf (.elem "table" classes attrs ch), cs.length ≤ cols)
          ∧ (∃ cs ∈ rowCellsOf (.elem "table" classes attrs ch), cs.length = cols)
          ∧ (∀ row ∈ grid, row.length = cols)
          ∧ (∀ (i j : Nat) (cs : List Node) (row : List String),
              (rowCellsOf (.elem "table" classes attrs ch)).get? i = some cs →
              grid.get? i = some row → j < cols →
              row.get? j = some (match cs.get? j with
                                 | some c => normalizeWs (getTextSp c)
                                 | none => ""))
          ∧ (∀ (i j : Nat) (cs : List Node) (row : List String),
              (rowCellsOf (.elem "table" classes attrs ch)).get? i = some cs →
              grid.get? i = some row → cs.length ≤ j → j < cols →
              row.get? j = some ""))
    ∧ (∀ (rows cols : Nat) (cells : List (List (Option Node))),
        processLayoutShape (.elem "table" classes attrs ch) =
            some (.layoutTable rows cols cells) →
          rows = (trRows (.elem "table" classes attrs ch)).length
          ∧ cells.length = rows
          ∧ (∀ row ∈ cells, row.length = cols)
          ∧ (∀ (i j : Nat) (cs : List Node) (row : List (Option Node)),
              (rowCellsOf (.elem "table" classes attrs ch)).get? i = some cs →
              cells.get? i = some row → j < cols →
              row.get? j = some (cs.get? j))) := by
  have hmax : ∀ t : Node, maxColsOf t = ((rowCellsOf t).map List.length).foldl max 0 := by
    intro t
    rw [maxColsOf, List.foldl_map]
  refine ⟨fun r => mem_trRowsL_iff, ?_, ?_, ?_⟩
  · intro r c
    rw [directCells, List.mem_filter]
    refine and_congr_right fun _ => ?_
    cases c with
    | text s => simp [IsCellElem]
    | elem n cl a k => simp [IsCellElem]
  · intro rows cols grid h
    simp only [processTable] at h
    by_cases he : (trRows (Node.elem "table" classes attrs ch)).isEmpty = true
    · rw [if_pos he] at h
      exact Option.noConfusion h
    · rw [if_neg he] at h
      by_cases hm : maxColsOf (Node.elem "table" classes attrs ch) = 0
      · rw [if_pos hm] at h
        exact Option.noConfusion h
      · rw [if_neg hm] at h
        simp only [Option.some.injEq, Block.dataTable.injEq] at h
        obtain ⟨hrows, hcols, hgrid⟩ := h
        subst hrows hcols hgrid
        refine ⟨rfl, by simp [rowCellsOf], ?_, ?_, ?_, ?_, ?_⟩
        · intro cs hcs
          rw [hmax]
          exact (foldl_max_bounds _ 0).2 _ (List.mem_map_of_mem List.length hcs)
        · rw [hmax]
          rcases foldl_max_attained
              ((rowCellsOf (.elem "table" classes attrs ch)).map List.length) 0 with h0 | hmem
          · exact absurd ((hmax _).trans h0) hm
          · obtain ⟨cs, hcs, hlen⟩ := List.mem_map.1 hmem
            exact ⟨cs, hcs, hlen⟩
        · intro row hrow
          obtain ⟨cs, _, rfl⟩ := List.mem_map.1 hrow
          simp
        · intro i j cs row hcs hrow hj
          rw [List.get?_map, hcs, Option.map_some'] at hrow
          cases hrow
          rw [List.get?_map, List.get?_range hj, Option.map_some']
        · intro i j cs row hcs hrow hlen hj
          rw [List.get?_map, hcs, Option.map_some'] at hrow
          cases hrow
          rw [List.get?_map, List.get?_range hj, Option.map_some',
            List.get?_eq_none.2 hlen]
  · intro rows cols cells h
    simp only [processLayoutShape] at h
    by_cases he : (trRows (Node.elem "table" classes attrs ch)).isEmpty = true
    · rw [if_pos he] at h
      exact Option.noConfusion h
    · rw [if_neg he] at h
      by_cases hm : maxColsOf (Node.elem "table" classes attrs ch) = 0
      · rw [if_pos hm] at h
        exact Option.noConfusion h
      · rw [if_neg hm] at h
        simp only [Option.some.injEq, Block.layoutTable.injEq] at h
        obtain ⟨hrows, hcols, hcells⟩ := h
        subst hrows hcols hcells
        refine ⟨rfl, by simp [rowCellsOf], ?_, ?_⟩
        · intro row hrow
          obtain ⟨cs, _, rfl⟩ := List.mem_map.1 hrow
          simp
        · intro i j cs row hcs hrow hj
          rw [List.get?_map, hcs, Option.map_some'] at hrow
          cases hrow
          rw [List.get?_map, List.get?_range hj, Option.map_some']

/-- Witness for C5 at a concrete bordered table with an unbalanced second
row containing a nested table: the outer grid keeps two rows and two
columns, the nested row is not among the outer rows, and the missing cell
of the short row renders empty. -/
theorem c5_table_grid_witness :
    2 = (trRows (.elem "table" [] [("border", "1")]
          [.elem "tr" [] [] [.elem "td" [] [] [.text "x"], .elem "td" [] [] [.text "y"]],
           .elem "tr" [] []
             [.elem "td" [] []
               [.elem "table" [] [] [.elem "tr" [] [] [.elem "td" [] [] [.text "z"]]]]]])).length
    ∧ (["z", ""] : List String).get? 1 = some "" := by
  have h := (c5_table_grid [] [("border", "1")]
      [.elem "tr" [] [] [.elem "td" [] [] [.text "x"], .elem "td" [] [] [.text "y"]],
       .elem "tr" [] []
         [.elem "td" [] []
           [.elem "table" [] [] [.elem "tr" [] [] [.elem "td" [] [] [.text "z"]]]]]]).2.2.1
      2 2 [["x", "y"], ["z", ""]] rfl
  exact ⟨h.1, h.2.2.2.2.2.2 1 1 _ _ rfl rfl (by decide) (by decide)⟩

end HtmlDocx
